import Mathlib

/-!
Verification of the FPA concurrent record store and backup/retention engine.

This file shallowly embeds the core of the Rust sources:
  * `src/backup.rs`   — `create_backup`, `enforce_retention`, `pick_historical`;
  * `src/storage.rs`  — `read_items` / `read_money` and the `CsvItem` /
    `CsvMoney` row codecs (`into_record`, `From<&Record>`);
  * `src/models.rs`   — `ItemRecord`, `MoneyRecord`, `DATE_FMT`.

Machine integers (`usize`) become `Nat`; fallible operations return
`Option`/`Except`; the filesystem is an explicit value (a list of directory
entries for the backup directory, a map from path to parsed file for the
record store).  File modification times are modelled as `Nat` (the source
sorts by `Option<SystemTime>`; every entry in the model has a readable
modification time).  Deleting a file always succeeds in the model (the
source ignores deletion errors).
-/

namespace FPA

/-! ### Decimal digit strings

`chrono` renders and parses timestamp fields as decimal digit runs
(`%Y`, `%m`, `%d`, `%H`, `%M` in `DATE_FMT`, zero padded).  We model the
rendering from `Nat.digits` and parsing as a left fold over digit chars. -/

/-- Little-endian decimal digits of `n`, computed with explicit fuel so
that the kernel can evaluate it (used only through `natChars`). -/
def digitsRev (fuel : Nat) (n : Nat) : List Nat :=
  match fuel with
  | 0 => []
  | fuel + 1 => if n = 0 then [] else n % 10 :: digitsRev fuel (n / 10)

theorem digitsRev_eq_digits (fuel n : Nat) (h : n ≤ fuel) :
    digitsRev fuel n = Nat.digits 10 n := by
  induction fuel generalizing n with
  | zero =>
    have : n = 0 := Nat.le_zero.mp h
    subst this; simp [digitsRev]
  | succ fuel ih =>
    unfold digitsRev
    rcases Nat.eq_zero_or_pos n with h0 | hpos
    · subst h0; simp
    · rw [if_neg (Nat.pos_iff_ne_zero.mp hpos)]
      rw [ih (n / 10) (by omega)]
      exact (Nat.digits_def' (by norm_num) hpos).symm

/-- The decimal digit characters of `n`, most significant first
(empty for `0`; padding supplies the digits of `0`). -/
def natChars (n : Nat) : List Char :=
  ((digitsRev n n).reverse).map (fun d => Char.ofNat (48 + d))

theorem natChars_eq (n : Nat) :
    natChars n = ((Nat.digits 10 n).reverse).map (fun d => Char.ofNat (48 + d)) := by
  unfold natChars
  rw [digitsRev_eq_digits n n (Nat.le_refl n)]

/-- Zero-pad the decimal rendering of `n` on the left to width `w`
(chrono's `%04`/`%02` padding for `%Y`/`%m`/`%d`/`%H`/`%M`). -/
def padChars (w n : Nat) : List Char :=
  List.replicate (w - (natChars n).length) '0' ++ natChars n

/-- Value of a big-endian run of decimal digit characters. -/
def charsVal (cs : List Char) : Nat :=
  cs.foldl (fun a c => a * 10 + (c.toNat - 48)) 0

theorem charsVal_aux (cs : List Char) (a : Nat) :
    cs.foldl (fun a c => a * 10 + (c.toNat - 48)) a
      = a * 10 ^ cs.length + charsVal cs := by
  induction cs generalizing a with
  | nil =>
    show a = a * 10 ^ 0 + charsVal []
    show a = a * 10 ^ 0 + 0
    omega
  | cons c cs ih =>
    show List.foldl _ (a * 10 + (c.toNat - 48)) cs = _
    rw [ih]
    show _ = a * 10 ^ (cs.length + 1) + List.foldl _ (0 * 10 + (c.toNat - 48)) cs
    rw [ih]
    ring

theorem charsVal_append (xs ys : List Char) :
    charsVal (xs ++ ys) = charsVal xs * 10 ^ ys.length + charsVal ys := by
  unfold charsVal
  rw [List.foldl_append, charsVal_aux]
  rfl

theorem charsVal_natChars (n : Nat) : charsVal (natChars n) = n := by
  induction n using Nat.strong_induction_on with
  | _ n ih =>
    rcases Nat.eq_zero_or_pos n with h0 | hpos
    · subst h0; simp [natChars_eq, charsVal]
    · have hd : Nat.digits 10 n = n % 10 :: Nat.digits 10 (n / 10) :=
        Nat.digits_def' (by norm_num) hpos
      have hrec : charsVal (natChars (n / 10)) = n / 10 :=
        ih (n / 10) (Nat.div_lt_self hpos (by norm_num))
      rw [natChars_eq] at hrec ⊢
      rw [hd]
      simp only [List.reverse_cons, List.map_append, List.map_cons, List.map_nil]
      rw [charsVal_append, hrec]
      have hm : n % 10 < 10 := Nat.mod_lt _ (by norm_num)
      have hc : charsVal [Char.ofNat (48 + n % 10)] = n % 10 := by
        unfold charsVal
        simp only [List.foldl_cons, List.foldl_nil, Nat.zero_mul, Nat.zero_add]
        interval_cases h : n % 10 <;> decide
      simp only [List.length_map, List.length_cons, List.length_nil] at *
      rw [hc]
      simpa [Nat.pow_one, Nat.mul_comm] using (Nat.div_add_mod n 10)

theorem charsVal_replicate_zero_append (k : Nat) (cs : List Char) :
    charsVal (List.replicate k '0' ++ cs) = charsVal cs := by
  induction k with
  | zero => simp
  | succ k ih =>
    simp only [List.replicate_succ, List.cons_append]
    unfold charsVal at *
    simpa using ih

theorem charsVal_padChars (w n : Nat) : charsVal (padChars w n) = n := by
  unfold padChars
  rw [charsVal_replicate_zero_append, charsVal_natChars]

theorem natChars_digits (n : Nat) : ∀ c ∈ natChars n, c.isDigit := by
  intro c hc
  rw [natChars_eq] at hc
  rcases List.mem_map.mp hc with ⟨d, hd, rfl⟩
  have : d < 10 := Nat.digits_lt_base (by norm_num) (List.mem_reverse.mp hd)
  interval_cases d <;> decide

theorem padChars_digits (w n : Nat) : ∀ c ∈ padChars w n, c.isDigit := by
  intro c hc
  unfold padChars at hc
  rcases List.mem_append.mp hc with h | h
  · rw [List.eq_of_mem_replicate h]; decide
  · exact natChars_digits n c h

/-! ### Local timestamps and the `DATE_FMT` codec

`models.rs` fixes `DATE_FMT = "%Y-%m-%d %H:%M"`.  A `chrono`
`DateTime<Local>` is modelled as a plain calendar timestamp (year, month,
day, hour, minute, second); `date.format(DATE_FMT)` renders the first five
fields zero-padded, dropping the seconds, and
`Local.datetime_from_str(s, DATE_FMT)` parses the whole string, validates
the field ranges, and yields a timestamp with seconds `0`. -/

structure LocalDT where
  year : Nat
  month : Nat
  day : Nat
  hour : Nat
  minute : Nat
  second : Nat
deriving DecidableEq, Repr

/-- Rendering `date.format(DATE_FMT).to_string()` — `"%Y-%m-%d %H:%M"`, seconds are
not rendered. -/
def formatChars (d : LocalDT) : List Char :=
  padChars 4 d.year ++ '-' :: (padChars 2 d.month ++ '-' ::
    (padChars 2 d.day ++ ' ' :: (padChars 2 d.hour ++ ':' :: padChars 2 d.minute)))

def formatDT (d : LocalDT) : String := ⟨formatChars d⟩

/-- Read a leading run of decimal digits (a `chrono` numeric field). -/
def readNum (cs : List Char) : Option (Nat × List Char) :=
  let ds := cs.takeWhile Char.isDigit
  if ds.isEmpty then none
  else some (charsVal ds, cs.dropWhile Char.isDigit)

/-- Consume one expected literal character of the format string. -/
def expectChar (c : Char) : List Char → Option (List Char)
  | [] => none
  | x :: xs => if x = c then some xs else none

def isLeap (y : Nat) : Bool :=
  (y % 4 == 0 && y % 100 != 0) || y % 400 == 0

def daysInMonth (y m : Nat) : Nat :=
  if m = 2 then (if isLeap y then 29 else 28)
  else if m = 4 ∨ m = 6 ∨ m = 9 ∨ m = 11 then 30
  else 31

/-- Parsing `Local.datetime_from_str(s, DATE_FMT)` over the character list:
parse `"%Y-%m-%d %H:%M"` against the whole input and validate calendar
ranges; a successful parse has seconds `0` (the format carries no seconds
field). -/
def parseDTChars (cs : List Char) : Option LocalDT :=
  (readNum cs).bind fun py =>
  (expectChar '-' py.2).bind fun r2 =>
  (readNum r2).bind fun pmo =>
  (expectChar '-' pmo.2).bind fun r4 =>
  (readNum r4).bind fun pda =>
  (expectChar ' ' pda.2).bind fun r6 =>
  (readNum r6).bind fun ph =>
  (expectChar ':' ph.2).bind fun r8 =>
  (readNum r8).bind fun pmi =>
  if pmi.2.isEmpty ∧ 1 ≤ pmo.1 ∧ pmo.1 ≤ 12 ∧ 1 ≤ pda.1
      ∧ pda.1 ≤ daysInMonth py.1 pmo.1 ∧ ph.1 ≤ 23 ∧ pmi.1 ≤ 59 then
    some ⟨py.1, pmo.1, pda.1, ph.1, pmi.1, 0⟩
  else none

/-- Parsing `Local.datetime_from_str(s, DATE_FMT)` on a string. -/
def parseDT (s : String) : Option LocalDT :=
  parseDTChars s.data

/-- Calendar validity of a timestamp (the range of values a
`DateTime<Local>` can hold at second precision). -/
def ValidDT (d : LocalDT) : Prop :=
  1 ≤ d.month ∧ d.month ≤ 12 ∧ 1 ≤ d.day ∧ d.day ≤ daysInMonth d.year d.month
    ∧ d.hour ≤ 23 ∧ d.minute ≤ 59 ∧ d.second ≤ 59

instance (d : LocalDT) : Decidable (ValidDT d) := by
  unfold ValidDT; infer_instance

/-- Truncate a timestamp to the precision `DATE_FMT` can represent. -/
def truncMin (d : LocalDT) : LocalDT :=
  { d with second := 0 }

theorem takeWhile_append_all {p : Char → Bool} (A B : List Char)
    (hA : ∀ a ∈ A, p a = true) :
    (A ++ B).takeWhile p = A ++ B.takeWhile p := by
  induction A with
  | nil => simp
  | cons a A ih =>
    have ha : p a = true := hA a (by simp)
    simp only [List.cons_append, List.takeWhile_cons, ha, if_true]
    rw [ih (fun x hx => hA x (by simp [hx]))]

theorem dropWhile_append_all {p : Char → Bool} (A B : List Char)
    (hA : ∀ a ∈ A, p a = true) :
    (A ++ B).dropWhile p = B.dropWhile p := by
  induction A with
  | nil => simp
  | cons a A ih =>
    have ha : p a = true := hA a (by simp)
    simp only [List.cons_append, List.dropWhile_cons, ha, if_true]
    exact ih (fun x hx => hA x (by simp [hx]))

theorem padChars_ne_nil (w n : Nat) (hw : 1 ≤ w) : padChars w n ≠ [] := by
  unfold padChars
  intro h
  rcases List.append_eq_nil.mp h with ⟨h1, h2⟩
  have := congrArg List.length h1
  simp only [List.length_replicate, List.length_nil] at this
  rw [h2] at this
  simp at this
  omega

/-- A `chrono` numeric field reads back the padded rendering of `n` when
what follows is empty or a non-digit literal. -/
theorem readNum_padChars (w n : Nat) (hw : 1 ≤ w) (rest : List Char)
    (hrest : rest.takeWhile Char.isDigit = []) :
    readNum (padChars w n ++ rest) = some (n, rest) := by
  unfold readNum
  rw [takeWhile_append_all _ _ (padChars_digits w n),
      dropWhile_append_all _ _ (padChars_digits w n), hrest]
  simp only [List.append_nil]
  rw [if_neg (by simpa [List.isEmpty_iff] using padChars_ne_nil w n hw)]
  rw [charsVal_padChars]
  have : rest.dropWhile Char.isDigit = rest := by
    cases rest with
    | nil => rfl
    | cons a l =>
      rw [List.takeWhile_cons] at hrest
      by_cases h : a.isDigit
      · simp [h] at hrest
      · rw [List.dropWhile_cons, if_neg (by simp [h])]
  rw [this]

theorem takeWhile_cons_nondigit (c : Char) (cs : List Char)
    (hc : c.isDigit = false) :
    (c :: cs).takeWhile Char.isDigit = [] := by
  simp [List.takeWhile_cons, hc]

theorem expectChar_cons_self (c : Char) (cs : List Char) :
    expectChar c (c :: cs) = some cs := by
  simp [expectChar]

/-- Parsing the rendered `DATE_FMT` string of a valid timestamp succeeds
and returns the timestamp truncated to minute precision. -/
theorem parseDT_formatDT (d : LocalDT) (h : ValidDT d) :
    parseDT (formatDT d) = some (truncMin d) := by
  obtain ⟨h1, h2, h3, h4, h5, h6, _⟩ := h
  have eY := readNum_padChars 4 d.year (by norm_num)
    ('-' :: (padChars 2 d.month ++ '-' :: (padChars 2 d.day ++ ' ' ::
      (padChars 2 d.hour ++ ':' :: padChars 2 d.minute))))
    (takeWhile_cons_nondigit _ _ (by decide))
  have eMo := readNum_padChars 2 d.month (by norm_num)
    ('-' :: (padChars 2 d.day ++ ' ' :: (padChars 2 d.hour ++ ':' :: padChars 2 d.minute)))
    (takeWhile_cons_nondigit _ _ (by decide))
  have eDa := readNum_padChars 2 d.day (by norm_num)
    (' ' :: (padChars 2 d.hour ++ ':' :: padChars 2 d.minute))
    (takeWhile_cons_nondigit _ _ (by decide))
  have eH := readNum_padChars 2 d.hour (by norm_num)
    (':' :: padChars 2 d.minute)
    (takeWhile_cons_nondigit _ _ (by decide))
  have eMi := readNum_padChars 2 d.minute (by norm_num) [] rfl
  simp only [List.append_nil] at eMi
  show parseDTChars (formatChars d) = some (truncMin d)
  unfold formatChars
  unfold parseDTChars
  rw [eY, Option.some_bind, expectChar_cons_self, Option.some_bind,
      eMo, Option.some_bind, expectChar_cons_self, Option.some_bind,
      eDa, Option.some_bind, expectChar_cons_self, Option.some_bind,
      eH, Option.some_bind, expectChar_cons_self, Option.some_bind,
      eMi, Option.some_bind]
  rw [if_pos ⟨rfl, h1, h2, h3, h4, h5, h6⟩]
  rfl

/-! ### Backup engine (`src/backup.rs`)

The backup directory is a list of entries.  `fs::read_dir` yields each
entry's file name; `fs::metadata(p).and_then(|m| m.modified())` is modelled
as a total `Nat` modification time (every entry in the model has a
readable modification time, so the `Option<SystemTime>` sort key is
`Some` throughout and orders by the time itself).  Deletion always
succeeds (`let _ = fs::remove_file(path)` discards failures). -/

/-- One backup-directory entry: file name, modification time, and whether
it is a regular file (`read_dir` also yields directories; only files are
deleted). -/
structure BFile where
  name : String
  mtime : Nat
  isFile : Bool
deriving DecidableEq, Repr

/-- The `BackupConfig` of `src/config.rs` (`usize` counts). -/
structure BackupConfig where
  keep_recent : Nat
  keep_historical : Nat
deriving DecidableEq, Repr

/-- Rust `str::starts_with` on the underlying character sequence. -/
def strStartsWith (s pre : String) : Bool :=
  pre.data.isPrefixOf s.data

/-- Rust `Iterator::step_by(s)` (for `s ≥ 1`): keep an element when the
countdown hits `0`, then reset the countdown to `s - 1`. -/
def stepByAux {α : Type} : List α → Nat → Nat → List α
  | [], _, _ => []
  | a :: as, s, 0 => a :: stepByAux as s (s - 1)
  | _ :: as, s, k + 1 => stepByAux as s k

/-- Rust `iter.step_by(s)`: elements at indices `0, s, 2*s, ...`. -/
def stepBy {α : Type} (l : List α) (s : Nat) : List α :=
  stepByAux l s 0

/-- The function `pick_historical` of `src/backup.rs`: stride sampling with
`step = max(1, len / count)`, taking at most `count` elements. -/
def pick_historical {α : Type} (paths : List α) (count : Nat) : List α :=
  if count = 0 || paths.isEmpty then []
  else
    let step := max 1 (paths.length / count)
    (stepBy paths step).take count

/-- Spec-side stride sampling, §4.4 step 5 in the spec's own words — take
`rest[0], rest[step], rest[2*step], ...` with
`step = max(1, floor(len(rest) / keep_historical))` until
`keep_historical` entries are collected or `rest` is exhausted (none when
`keep_historical` is `0` or `rest` is empty).  Used only to compare
`pick_historical` against the specified sampling rule. -/
def strideSampleSpec {α : Type} (rest : List α) (keepHist : Nat) : List α :=
  if keepHist = 0 ∨ rest.isEmpty then []
  else
    let step := max 1 (rest.length / keepHist)
    (List.range keepHist).filterMap (fun i => rest[i * step]?)

/-- Stable ascending sort by modification time:
`paths.sort_by_key(|p| fs::metadata(p).and_then(|m| m.modified()).ok())`
(a stable sort; every key in the model is `Some mtime`). -/
def sortByMtime (l : List BFile) : List BFile :=
  List.insertionSort (fun a b => a.mtime ≤ b.mtime) l

/-- The sort followed by `paths.reverse()` — newest first. -/
def sortNewestFirst (l : List BFile) : List BFile :=
  (sortByMtime l).reverse

/-- Byte-lexicographic `≤` on path names (the `Ord` used by
`keep_paths.sort()` on `PathBuf`s). -/
def charsLe : List Char → List Char → Bool
  | [], _ => true
  | _ :: _, [] => false
  | a :: as, b :: bs =>
    if a.toNat < b.toNat then true
    else if b.toNat < a.toNat then false
    else charsLe as bs

/-- The sort `keep_paths.sort()` applies to the kept path names. -/
def sortNames (l : List String) : List String :=
  List.insertionSort (fun a b => charsLe a.data b.data = true) l

/-- The function `enforce_retention` of `src/backup.rs`, acting on the backup
directory listing for one pass.  Collect the entries whose name starts
with `stem`, sort newest first, return unchanged when the count is within
the policy, otherwise keep the first `keep_recent` plus the stride sample
of the rest and delete every other `stem`-prefixed file. -/
def enforce_retention (dir : List BFile) (stem : String) (policy : BackupConfig) :
    List BFile :=
  let paths := sortNewestFirst (dir.filter (fun e => strStartsWith e.name stem))
  if paths.length ≤ policy.keep_recent + policy.keep_historical then dir
  else
    let recent := paths.take policy.keep_recent
    let rest := paths.drop policy.keep_recent
    let hist := pick_historical rest policy.keep_historical
    let keep_paths := sortNames ((recent ++ hist).map BFile.name)
    dir.filter (fun e =>
      !(strStartsWith e.name stem && e.isFile && !(keep_paths.contains e.name)))

/-- The filesystem state `create_backup` can observe and mutate: whether
the source file exists, whether the backup directory exists, and the
backup directory's entries. -/
structure FsState where
  sourceExists : Bool
  dirExists : Bool
  entries : List BFile
deriving DecidableEq, Repr

/-- The timestamp `Local::now().format("%Y%m%d%H%M%S")` rendered as a
digit string; the model renders its abstract clock value `now`, which is
also the new copy's modification time. -/
def tsStr (now : Nat) : String :=
  ⟨padChars 14 now⟩

/-- The function `create_backup` of `src/backup.rs`.  `stem`/`ext` are what the
source derives from the file name (`file_stem`/`extension` with the
`"file"`/`"bak"` defaults); when the source file is absent it returns
`Ok(None)` without touching the filesystem, otherwise it creates the
backup directory, copies the source to `{stem}_{timestamp}.{ext}`
(overwriting a same-named entry), enforces retention for `stem`, and
returns the destination path. -/
def create_backup (st : FsState) (stem ext : String) (now : Nat)
    (policy : BackupConfig) : FsState × Option String :=
  if !st.sourceExists then (st, none)
  else
    let dest := stem ++ "_" ++ tsStr now ++ "." ++ ext
    let entries1 := st.entries.filter (fun e => e.name ≠ dest) ++ [⟨dest, now, true⟩]
    let entries2 := enforce_retention entries1 stem policy
    ({ sourceExists := st.sourceExists, dirExists := true, entries := entries2 },
      some dest)

/-! ### Records and the row codec (`src/models.rs`, `src/storage.rs`)

`f64` fields are modelled as exact rationals: inside a row (`CsvItem` /
`CsvMoney`) they are typed values copied verbatim by the codec, and the
textual layer parses finite decimal notation (the `inf`/`NaN` spellings
and binary rounding of `f64` are outside the model).  A `Uuid` is its
canonical hyphenated text (the form this program emits);
`Uuid::parse_str` is modelled on that form.  Advisory-lock acquisition
and raw I/O errors are untouched by the claims proved here and always
succeed in the model. -/

/-- The `ItemRecord` struct of `src/models.rs`. -/
structure ItemRecord where
  id : String
  date : LocalDT
  product : String
  description : String
  location : String
  reference : String
  cost : Rat
  urgency : Int
  value : Int
  price_comp : Int
  effect : Int
  justification : String
  recurrence : String
  overall_score : Option Rat
deriving DecidableEq, Repr

/-- The `MoneyRecord` struct of `src/models.rs`. -/
structure MoneyRecord where
  id : String
  date : LocalDT
  entry_type : String
  source_or_destination : String
  amount : Rat
  notes : String
  linked_item_id : Option String
deriving DecidableEq, Repr

/-- The `CsvItem` struct of `src/storage.rs`: the row of named fields; every field
is typed except the date, which the row stores as text. -/
structure CsvItem where
  id : String
  date : String
  product : String
  description : String
  location : String
  reference : String
  cost : Rat
  urgency : Int
  value : Int
  price_comp : Int
  effect : Int
  justification : String
  recurrence : String
  overall_score : Option Rat
deriving DecidableEq, Repr

/-- The `CsvMoney` struct of `src/storage.rs`. -/
structure CsvMoney where
  id : String
  date : String
  entry_type : String
  source_or_destination : String
  amount : Rat
  notes : String
  linked_item_id : Option String
deriving DecidableEq, Repr

/-- Decoding `CsvItem::into_record`: every field is moved across; the date string
is parsed against `DATE_FMT` and falls back to `Local::now()` (the `now`
argument) when it does not parse. -/
def CsvItem.into_record (c : CsvItem) (now : LocalDT) : ItemRecord :=
  { id := c.id
    date := (parseDT c.date).getD now
    product := c.product
    description := c.description
    location := c.location
    reference := c.reference
    cost := c.cost
    urgency := c.urgency
    value := c.value
    price_comp := c.price_comp
    effect := c.effect
    justification := c.justification
    recurrence := c.recurrence
    overall_score := c.overall_score }

/-- Encoding `From<&ItemRecord> for CsvItem`: every field is copied; the date is
rendered with `DATE_FMT`. -/
def CsvItem.ofRecord (r : ItemRecord) : CsvItem :=
  { id := r.id
    date := formatDT r.date
    product := r.product
    description := r.description
    location := r.location
    reference := r.reference
    cost := r.cost
    urgency := r.urgency
    value := r.value
    price_comp := r.price_comp
    effect := r.effect
    justification := r.justification
    recurrence := r.recurrence
    overall_score := r.overall_score }

/-- Decoding `CsvMoney::into_record`, with the same date fallback. -/
def CsvMoney.into_record (c : CsvMoney) (now : LocalDT) : MoneyRecord :=
  { id := c.id
    date := (parseDT c.date).getD now
    entry_type := c.entry_type
    source_or_destination := c.source_or_destination
    amount := c.amount
    notes := c.notes
    linked_item_id := c.linked_item_id }

/-- Encoding `From<&MoneyRecord> for CsvMoney`. -/
def CsvMoney.ofRecord (r : MoneyRecord) : CsvMoney :=
  { id := r.id
    date := formatDT r.date
    entry_type := r.entry_type
    source_or_destination := r.source_or_destination
    amount := r.amount
    notes := r.notes
    linked_item_id := r.linked_item_id }

/-! #### The textual field parsers used by the `serde` layer -/

def isHexDigit (c : Char) : Bool :=
  c.isDigit || (97 ≤ c.toNat && c.toNat ≤ 102) || (65 ≤ c.toNat && c.toNat ≤ 70)

/-- Parsing `Uuid::parse_str` on canonical hyphenated text: 36 characters,
hyphens at positions 8, 13, 18, 23, hex digits elsewhere; the stored
value is lowercased. -/
def parseUuid (s : String) : Option String :=
  let cs := s.data
  if cs.length = 36
      && (List.range 36).all (fun i =>
        if i = 8 || i = 13 || i = 18 || i = 23 then cs.getD i ' ' == '-'
        else isHexDigit (cs.getD i ' ')) then
    some ⟨cs.map Char.toLower⟩
  else none

/-- An optional sign followed by a non-empty digit run. -/
def parseSignedDigits (cs : List Char) : Option Int :=
  match cs with
  | '-' :: r =>
    if !r.isEmpty && r.all Char.isDigit then some (-(charsVal r : Int)) else none
  | '+' :: r =>
    if !r.isEmpty && r.all Char.isDigit then some ((charsVal r : Int)) else none
  | r =>
    if !r.isEmpty && r.all Char.isDigit then some ((charsVal r : Int)) else none

/-- Parsing `str::parse::<i32>`: signed digits within the `i32` range. -/
def parseI32 (s : String) : Option Int :=
  (parseSignedDigits s.data).bind fun v =>
    if -(2 ^ 31) ≤ v ∧ v ≤ 2 ^ 31 - 1 then some v else none

/-- The exact value of a parsed decimal float. -/
def ratOfParts (neg : Bool) (ip fp : List Char) (ex : Int) : Rat :=
  let m : Rat := (charsVal ip : Rat) + (charsVal fp : Rat) / (10 : Rat) ^ fp.length
  let v := m * (10 : Rat) ^ ex
  if neg then -v else v

def parseExpPart (neg : Bool) (ip fp : List Char) : List Char → Option Rat
  | '-' :: r =>
    if !r.isEmpty && r.all Char.isDigit then
      some (ratOfParts neg ip fp (-(charsVal r : Int))) else none
  | '+' :: r =>
    if !r.isEmpty && r.all Char.isDigit then
      some (ratOfParts neg ip fp (charsVal r)) else none
  | r =>
    if !r.isEmpty && r.all Char.isDigit then
      some (ratOfParts neg ip fp (charsVal r)) else none

def parseF64Core (neg : Bool) (cs : List Char) : Option Rat :=
  let ip := cs.takeWhile Char.isDigit
  let r1 := cs.dropWhile Char.isDigit
  match r1 with
  | [] => if ip.isEmpty then none else some (ratOfParts neg ip [] 0)
  | '.' :: r =>
    let fp := r.takeWhile Char.isDigit
    let r2 := r.dropWhile Char.isDigit
    if ip.isEmpty && fp.isEmpty then none
    else
      match r2 with
      | [] => some (ratOfParts neg ip fp 0)
      | 'e' :: r3 => parseExpPart neg ip fp r3
      | 'E' :: r3 => parseExpPart neg ip fp r3
      | _ => none
  | 'e' :: r3 => if ip.isEmpty then none else parseExpPart neg ip [] r3
  | 'E' :: r3 => if ip.isEmpty then none else parseExpPart neg ip [] r3
  | _ => none

/-- Parsing `str::parse::<f64>` on finite decimal notation, with the exact
rational value. -/
def parseF64 (s : String) : Option Rat :=
  match s.data with
  | '-' :: r => parseF64Core true r
  | '+' :: r => parseF64Core false r
  | r => parseF64Core false r

/-! #### Row decoding (the `csv` + `serde` layer)

With headers enabled the `csv` reader checks that each record has the
header's length, then `serde` looks every struct field up by column name:
a missing column is an error for a required field and `None` for an
`Option` field; an `Option` field is also `None` on an empty string; any
other unparsable field is an error.  All of these surface through the
`result?` in `read_items` / `read_money` and abort the load. -/

inductive DecodeErr where
  | lengthMismatch
  | missingColumn (col : String)
  | badField (col : String)
deriving DecidableEq, Repr

/-- The value of column `col` for this row, by header lookup. -/
def colValue (hdr row : List String) (col : String) : Option String :=
  (hdr.findIdx? (fun h => h == col)).bind fun i => row[i]?

/-- A required plain-text column. -/
def reqCol (hdr row : List String) (col : String) : Except DecodeErr String :=
  match colValue hdr row col with
  | none => .error (.missingColumn col)
  | some v => .ok v

/-- A required typed column. -/
def reqParsed {α : Type} (hdr row : List String) (col : String)
    (p : String → Option α) : Except DecodeErr α :=
  match colValue hdr row col with
  | none => .error (.missingColumn col)
  | some v =>
    match p v with
    | none => .error (.badField col)
    | some a => .ok a

/-- An `Option` typed column: absent column or empty string is `None`. -/
def optParsed {α : Type} (hdr row : List String) (col : String)
    (p : String → Option α) : Except DecodeErr (Option α) :=
  match colValue hdr row col with
  | none => .ok none
  | some v =>
    if v = "" then .ok none
    else
      match p v with
      | none => .error (.badField col)
      | some a => .ok (some a)

/-- Deserializing one text row into a `CsvItem`. -/
def decodeItemRow (hdr row : List String) : Except DecodeErr CsvItem :=
  if row.length ≠ hdr.length then .error .lengthMismatch
  else do
    let id ← reqParsed hdr row "id" parseUuid
    let date ← reqCol hdr row "date"
    let product ← reqCol hdr row "product"
    let description ← reqCol hdr row "description"
    let location ← reqCol hdr row "location"
    let reference ← reqCol hdr row "reference"
    let cost ← reqParsed hdr row "cost" parseF64
    let urgency ← reqParsed hdr row "urgency" parseI32
    let value ← reqParsed hdr row "value" parseI32
    let price_comp ← reqParsed hdr row "price_comp" parseI32
    let effect ← reqParsed hdr row "effect" parseI32
    let justification ← reqCol hdr row "justification"
    let recurrence ← reqCol hdr row "recurrence"
    let overall_score ← optParsed hdr row "overall_score" parseF64
    return ⟨id, date, product, description, location, reference, cost, urgency,
      value, price_comp, effect, justification, recurrence, overall_score⟩

/-- Deserializing one text row into a `CsvMoney`. -/
def decodeMoneyRow (hdr row : List String) : Except DecodeErr CsvMoney :=
  if row.length ≠ hdr.length then .error .lengthMismatch
  else do
    let id ← reqParsed hdr row "id" parseUuid
    let date ← reqCol hdr row "date"
    let entry_type ← reqCol hdr row "entry_type"
    let source_or_destination ← reqCol hdr row "source_or_destination"
    let amount ← reqParsed hdr row "amount" parseF64
    let notes ← reqCol hdr row "notes"
    let linked_item_id ← optParsed hdr row "linked_item_id" parseUuid
    return ⟨id, date, entry_type, source_or_destination, amount, notes,
      linked_item_id⟩

/-- The deserialize-and-push loop of `read_items`: the first row error
aborts the whole load. -/
def read_items_rows (hdr : List String) (rows : List (List String))
    (now : LocalDT) : Except DecodeErr (List ItemRecord) :=
  match rows with
  | [] => .ok []
  | r :: rs =>
    match decodeItemRow hdr r with
    | .error e => .error e
    | .ok ci =>
      match read_items_rows hdr rs now with
      | .error e => .error e
      | .ok rest => .ok (ci.into_record now :: rest)

/-- The deserialize-and-push loop of `read_money`. -/
def read_money_rows (hdr : List String) (rows : List (List String))
    (now : LocalDT) : Except DecodeErr (List MoneyRecord) :=
  match rows with
  | [] => .ok []
  | r :: rs =>
    match decodeMoneyRow hdr r with
    | .error e => .error e
    | .ok ce =>
      match read_money_rows hdr rs now with
      | .error e => .error e
      | .ok rest => .ok (ce.into_record now :: rest)

/-- A record file as the `csv` reader sees it: the header row and the
data rows. -/
structure CsvFile where
  header : List String
  rows : List (List String)
deriving DecidableEq, Repr

/-- The function `read_items` of `src/storage.rs` over an abstract filesystem
(`fs path = none` iff `!path.exists()`): a missing file is an empty
collection; otherwise the file is opened under a shared lock and decoded
row by row. -/
def read_items (fs : String → Option CsvFile) (path : String) (now : LocalDT) :
    Except DecodeErr (List ItemRecord) :=
  match fs path with
  | none => .ok []
  | some f => read_items_rows f.header f.rows now

/-- The function `read_money` of `src/storage.rs`. -/
def read_money (fs : String → Option CsvFile) (path : String) (now : LocalDT) :
    Except DecodeErr (List MoneyRecord) :=
  match fs path with
  | none => .ok []
  | some f => read_money_rows f.header f.rows now

/-! ### Lemmas about stride sampling -/

theorem stepByAux_drop {α : Type} (l : List α) (s : Nat) :
    ∀ k, stepByAux l s k = stepByAux (l.drop k) s 0 := by
  induction l with
  | nil => intro k; simp [stepByAux]
  | cons a as ih =>
    intro k
    cases k with
    | zero => rfl
    | succ k =>
      show stepByAux as s k = _
      rw [ih k]
      rfl

theorem stepBy_cons {α : Type} (a : α) (as : List α) (s : Nat) :
    stepBy (a :: as) s = a :: stepBy (as.drop (s - 1)) s := by
  show a :: stepByAux as s (s - 1) = _
  rw [stepByAux_drop]
  rfl

theorem stepBy_take {α : Type} (c : Nat) (l : List α) (s : Nat) (hs : 1 ≤ s) :
    (stepBy l s).take c = (List.range c).filterMap (fun i => l[i * s]?) := by
  induction c generalizing l with
  | zero => simp
  | succ c ih =>
    cases l with
    | nil => simp [stepBy, stepByAux]
    | cons a as =>
      rw [stepBy_cons, List.take_succ_cons, ih (as.drop (s - 1)),
        List.range_succ_eq_map, List.filterMap_cons]
      have h0 : (a :: as)[0 * s]? = some a := by simp
      rw [h0, List.filterMap_map]
      have hfun : ∀ i : Nat,
          ((fun i => (a :: as)[i * s]?) ∘ Nat.succ) i = (as.drop (s - 1))[i * s]? := by
        intro i
        have hsm : Nat.succ i * s = i * s + s := Nat.succ_mul i s
        have h1 : Nat.succ i * s = ((s - 1) + i * s) + 1 := by omega
        show (a :: as)[Nat.succ i * s]? = _
        rw [h1, List.getElem?_cons_succ, List.getElem?_drop]
      rw [funext hfun]

theorem stepBy_one {α : Type} (l : List α) : stepBy l 1 = l := by
  induction l with
  | nil => rfl
  | cons a as ih =>
    rw [stepBy_cons]
    simpa using ih

theorem pick_historical_cons_mem {α : Type} (a : α) (as : List α) (c : Nat)
    (hc : 1 ≤ c) : a ∈ pick_historical (a :: as) c := by
  unfold pick_historical
  rw [if_neg (by simp; omega)]
  show a ∈ (stepBy (a :: as) (max 1 ((a :: as).length / c))).take c
  rw [stepBy_cons]
  obtain ⟨c', rfl⟩ : ∃ c', c = c' + 1 := ⟨c - 1, by omega⟩
  rw [List.take_succ_cons]
  exact List.mem_cons_self a _

/-- C1: `pick_historical` realises the spec's stride sampling: it equals
the rule "take `rest[0], rest[step], rest[2*step], ...` with
`step = max(1, floor(len(rest) / keep_historical))` until
`keep_historical` entries are collected or `rest` is exhausted"; on a list
of length 10 with `keep_historical = 3` it selects exactly the entries at
indices 0, 3 and 6; and it selects nothing when `keep_historical = 0` or
the list is empty.
-/
theorem pick_historical_is_stride_sampling :
    (∀ (α : Type) (rest : List α) (keepHist : Nat),
        pick_historical rest keepHist = strideSampleSpec rest keepHist)
    ∧ pick_historical (List.range 10) 3 = [0, 3, 6]
    ∧ (∀ (α : Type) (rest : List α), pick_historical rest 0 = [])
    ∧ (∀ keepHist : Nat, pick_historical ([] : List Nat) keepHist = []) := by
  refine ⟨?_, by decide, ?_, ?_⟩
  · intro α rest keepHist
    unfold pick_historical strideSampleSpec
    by_cases h0 : keepHist = 0
    · simp [h0]
    · by_cases hemp : rest.isEmpty
      · simp [h0, hemp]
      · rw [if_neg (by simp [h0, hemp]), if_neg (by simp [h0, hemp])]
        exact stepBy_take keepHist rest _ (Nat.le_max_left 1 _)
  · intro α rest
    simp [pick_historical]
  · intro keepHist
    simp [pick_historical]

/-! ### Lemmas about the modification-time sort -/

instance : IsTotal BFile (fun a b => a.mtime ≤ b.mtime) :=
  ⟨fun a b => Nat.le_total a.mtime b.mtime⟩

instance : IsTrans BFile (fun a b => a.mtime ≤ b.mtime) :=
  ⟨fun _ _ _ => Nat.le_trans⟩

theorem sortByMtime_perm (l : List BFile) : List.Perm (sortByMtime l) l :=
  List.perm_insertionSort _ l

theorem sortNewestFirst_perm (l : List BFile) : List.Perm (sortNewestFirst l) l :=
  (List.reverse_perm _).trans (sortByMtime_perm l)

theorem sortByMtime_sorted (l : List BFile) :
    List.Sorted (fun a b => a.mtime ≤ b.mtime) (sortByMtime l) :=
  List.sorted_insertionSort _ l

theorem length_sortNewestFirst (l : List BFile) :
    (sortNewestFirst l).length = l.length :=
  (sortNewestFirst_perm l).length_eq

theorem sortByMtime_of_newestFirst (l : List BFile) (h : BFile) (t : List BFile)
    (heq : sortNewestFirst l = h :: t) :
    sortByMtime l = t.reverse ++ [h] := by
  unfold sortNewestFirst at heq
  calc sortByMtime l = ((sortByMtime l).reverse).reverse :=
        (List.reverse_reverse _).symm
    _ = (h :: t).reverse := by rw [heq]
    _ = t.reverse ++ [h] := by simp

/-- If the newest-first sort begins with `h`, then `h` has the largest
modification time. -/
theorem sortNewestFirst_head_max (l : List BFile) (h : BFile) (t : List BFile)
    (heq : sortNewestFirst l = h :: t) : ∀ e ∈ l, e.mtime ≤ h.mtime := by
  intro e he
  have hS := sortByMtime_of_newestFirst l h t heq
  have hsorted := sortByMtime_sorted l
  rw [hS] at hsorted
  have hmem : e ∈ sortByMtime l := (sortByMtime_perm l).mem_iff.mpr he
  rw [hS] at hmem
  rcases List.mem_append.mp hmem with h1 | h1
  · exact (List.pairwise_append.mp hsorted).2.2 e h1 h (by simp)
  · rw [List.mem_singleton] at h1
    subst h1
    exact Nat.le_refl _

/-- If the ascending sort begins with `m`, then `m` has the smallest
modification time. -/
theorem sortByMtime_head_min (l : List BFile) (m : BFile) (t : List BFile)
    (heq : sortByMtime l = m :: t) : ∀ e ∈ l, m.mtime ≤ e.mtime := by
  intro e he
  have hsorted := sortByMtime_sorted l
  rw [heq] at hsorted
  have hmem : e ∈ m :: t := by
    rw [← heq]
    exact (sortByMtime_perm l).mem_iff.mpr he
  rcases List.mem_cons.mp hmem with rfl | h1
  · exact Nat.le_refl _
  · exact (List.pairwise_cons.mp hsorted).1 e h1

/-- Within a directory listing with no duplicate names, entries are
determined by their name. -/
theorem nodup_names_inj {l : List BFile} (h : (l.map BFile.name).Nodup) :
    ∀ a ∈ l, ∀ b ∈ l, a.name = b.name → a = b := by
  induction l with
  | nil => intro a ha; simp at ha
  | cons x xs ih =>
    rw [List.map_cons, List.nodup_cons] at h
    intro a ha b hb hab
    rcases List.mem_cons.mp ha with rfl | ha' <;>
      rcases List.mem_cons.mp hb with rfl | hb'
    · rfl
    · exact absurd (hab ▸ List.mem_map_of_mem BFile.name hb') h.1
    · exact absurd (hab ▸ List.mem_map_of_mem BFile.name ha') h.1
    · exact ih h.2 a ha' b hb' hab

theorem sortNames_mem (l : List String) (x : String) :
    (sortNames l).contains x = true ↔ x ∈ l := by
  rw [show (sortNames l).contains x = List.elem x (sortNames l) from rfl,
    List.elem_iff]
  exact (List.perm_insertionSort _ l).mem_iff

theorem take_add_split {α : Type} (m n : Nat) :
    ∀ l : List α, l.take (m + n) = l.take m ++ (l.drop m).take n := by
  induction m with
  | zero => intro l; simp
  | succ m ih =>
    intro l
    cases l with
    | nil => simp
    | cons a as =>
      have h1 : m + 1 + n = (m + n) + 1 := by omega
      rw [h1, List.take_succ_cons, ih as]
      rfl

theorem pick_historical_step_one {α : Type} (l : List α) (c : Nat) (hc : c ≠ 0)
    (hl : l ≠ []) (hstep : l.length / c ≤ 1) :
    pick_historical l c = l.take c := by
  unfold pick_historical
  rw [if_neg (by simp [hc, hl])]
  show (stepBy l (max 1 (l.length / c))).take c = l.take c
  have hmax : max 1 (l.length / c) = 1 := by omega
  rw [hmax, stepBy_one]

/-- Unfolding `enforce_retention` in the over-budget case, with the `let`s of the
source spelled out. -/
theorem enforce_retention_eq_filter (dir : List BFile) (stem : String)
    (kr kh : Nat)
    (hgt : ¬ ((dir.filter (fun e => strStartsWith e.name stem)).length ≤ kr + kh)) :
    enforce_retention dir stem ⟨kr, kh⟩ =
      dir.filter (fun e =>
        !(strStartsWith e.name stem && e.isFile &&
          !((sortNames
              (((sortNewestFirst (dir.filter (fun e => strStartsWith e.name stem))).take kr
                ++ pick_historical
                    ((sortNewestFirst (dir.filter (fun e => strStartsWith e.name stem))).drop kr)
                    kh).map BFile.name)).contains e.name))) := by
  simp only [enforce_retention]
  rw [length_sortNewestFirst, if_neg hgt]

/-- A retention pass over exactly 7 candidates at policy `(3, 3)` deletes
exactly the oldest candidate: the result is the directory without the
entry named like `o` (the strict-minimum-mtime candidate), and a candidate
survives exactly when it is among the first 6 of the newest-first order. -/
theorem retention_seven (dir : List BFile) (stem : String) (o : BFile)
    (hnodup : (dir.map BFile.name).Nodup)
    (hlen : (dir.filter (fun e => strStartsWith e.name stem)).length = 7)
    (hfile : ∀ e ∈ dir.filter (fun e => strStartsWith e.name stem), e.isFile = true)
    (ho : o ∈ dir.filter (fun e => strStartsWith e.name stem))
    (hmin : ∀ f ∈ dir.filter (fun e => strStartsWith e.name stem),
        f.name ≠ o.name → o.mtime < f.mtime) :
    enforce_retention dir stem ⟨3, 3⟩ = dir.filter (fun e => !(e.name == o.name))
      ∧ ∀ e ∈ dir.filter (fun e => strStartsWith e.name stem),
          (e ∈ enforce_retention dir stem ⟨3, 3⟩ ↔
            e ∈ (sortNewestFirst (dir.filter (fun e => strStartsWith e.name stem))).take 6) := by
  obtain ⟨C, hC⟩ : ∃ C, dir.filter (fun e => strStartsWith e.name stem) = C := ⟨_, rfl⟩
  rw [hC] at hlen hfile ho hmin ⊢
  have hER := enforce_retention_eq_filter dir stem 3 3
    (by rw [hC, hlen]; decide)
  rw [hC] at hER
  have hsubC : ∀ x ∈ C, x ∈ dir := by
    intro x hx; rw [← hC] at hx; exact List.mem_of_mem_filter hx
  have hmatchC : ∀ x ∈ C, strStartsWith x.name stem = true := by
    intro x hx; rw [← hC] at hx; exact (List.mem_filter.mp hx).2
  -- the ascending sort starts with the strict-minimum entry `o`
  have hlenS : (sortByMtime C).length = 7 := by
    rw [(sortByMtime_perm C).length_eq, hlen]
  obtain ⟨m, t, hS⟩ : ∃ m t, sortByMtime C = m :: t := by
    cases h' : sortByMtime C with
    | nil => rw [h'] at hlenS; simp at hlenS
    | cons m t => exact ⟨m, t, rfl⟩
  have hmC : m ∈ C := (sortByMtime_perm C).mem_iff.mp (by rw [hS]; exact List.mem_cons_self m t)
  have hmmin : ∀ e ∈ C, m.mtime ≤ e.mtime := sortByMtime_head_min C m t hS
  have hmo : m = o := by
    by_cases hn : m.name = o.name
    · exact nodup_names_inj hnodup m (hsubC m hmC) o (hsubC o ho) hn
    · exact absurd (hmin m hmC hn) (Nat.not_lt.mpr (hmmin o ho))
  subst hmo
  have hpaths : sortNewestFirst C = t.reverse ++ [m] := by
    unfold sortNewestFirst
    rw [hS, List.reverse_cons]
  have hlen6 : t.reverse.length = 6 := by
    have h7 := length_sortNewestFirst C
    rw [hpaths, hlen] at h7
    simp only [List.length_append, List.length_reverse, List.length_cons,
      List.length_nil] at h7
    rw [List.length_reverse]
    omega
  have htake6 : (sortNewestFirst C).take 6 = t.reverse := by
    rw [hpaths, ← hlen6]
    exact List.take_left t.reverse [m]
  have hdrop3len : ((sortNewestFirst C).drop 3).length = 4 := by
    rw [List.length_drop, length_sortNewestFirst, hlen]
  have hpick : pick_historical ((sortNewestFirst C).drop 3) 3
      = ((sortNewestFirst C).drop 3).take 3 := by
    apply pick_historical_step_one
    · decide
    · intro h; rw [h] at hdrop3len; simp at hdrop3len
    · rw [hdrop3len]
  have hkeep_list : (sortNewestFirst C).take 3
      ++ ((sortNewestFirst C).drop 3).take 3 = t.reverse := by
    rw [← take_add_split]
    exact htake6
  -- no-duplicate bookkeeping
  have hCnodupN : (C.map BFile.name).Nodup := by
    have hsub : List.Sublist C dir := by rw [← hC]; exact List.filter_sublist dir
    exact List.Nodup.sublist (hsub.map BFile.name) hnodup
  have hCnodup : C.Nodup := List.Nodup.of_map BFile.name hCnodupN
  have hPnodup : (t.reverse ++ [m]).Nodup := by
    rw [← hpaths]
    exact (sortNewestFirst_perm C).nodup_iff.mpr hCnodup
  have hoNotT : m ∉ t.reverse := by
    rcases List.nodup_append.mp hPnodup with ⟨-, -, hdisj⟩
    intro hmem
    exact hdisj hmem (List.mem_singleton_self m)
  have hmemC_of_T : ∀ f ∈ t.reverse, f ∈ C := by
    intro f hf
    have : f ∈ sortNewestFirst C := by
      rw [hpaths]; exact List.mem_append_left _ hf
    exact (sortNewestFirst_perm C).mem_iff.mp this
  have hnameoT : m.name ∉ (t.reverse).map BFile.name := by
    intro hmem
    rcases List.mem_map.mp hmem with ⟨f, hf, hfname⟩
    have hfo : f = m := nodup_names_inj hnodup f (hsubC f (hmemC_of_T f hf)) m
      (hsubC m ho) hfname
    rw [hfo] at hf
    exact hoNotT hf
  have hmemT_iff : ∀ e ∈ C, (e ∈ t.reverse ↔ e.name ≠ m.name) := by
    intro e heC
    constructor
    · intro heT hname
      have he : e = m := nodup_names_inj hnodup e (hsubC e heC) m (hsubC m ho) hname
      rw [he] at heT
      exact hoNotT heT
    · intro hname
      have heP : e ∈ t.reverse ++ [m] := by
        rw [← hpaths]
        exact (sortNewestFirst_perm C).mem_iff.mpr heC
      rcases List.mem_append.mp heP with h1 | h1
      · exact h1
      · rw [List.mem_singleton] at h1
        exact absurd (congrArg BFile.name h1) hname
  have hcontains : ∀ x : String,
      ((sortNames (((sortNewestFirst C).take 3
        ++ pick_historical ((sortNewestFirst C).drop 3) 3).map BFile.name)).contains x
        = true) ↔ x ∈ (t.reverse).map BFile.name := by
    intro x
    rw [sortNames_mem, hpick, hkeep_list]
  have hmain : enforce_retention dir stem ⟨3, 3⟩
      = dir.filter (fun e => !(e.name == m.name)) := by
    rw [hER]
    apply List.filter_congr
    intro e he
    by_cases hst : strStartsWith e.name stem
    · have heC : e ∈ C := by rw [← hC]; exact List.mem_filter.mpr ⟨he, hst⟩
      have hef : e.isFile = true := hfile e heC
      by_cases hname : e.name = m.name
      · have hcontf : (sortNames (((sortNewestFirst C).take 3
            ++ pick_historical ((sortNewestFirst C).drop 3) 3).map BFile.name)).contains
              e.name = false := by
          rw [Bool.eq_false_iff]
          intro hcc
          exact hnameoT (hname ▸ (hcontains e.name).mp hcc)
        have hbeq : (e.name == m.name) = true := by simp [hname]
        rw [hst, hef, hcontf, hbeq]
        rfl
      · have heT : e ∈ t.reverse := (hmemT_iff e heC).mpr hname
        have hcont := (hcontains e.name).mpr (List.mem_map_of_mem BFile.name heT)
        have hbeq : (e.name == m.name) = false := by simp [hname]
        rw [hst, hef, hcont, hbeq]
        rfl
    · have hstf : strStartsWith e.name stem = false := Bool.eq_false_iff.mpr hst
      have hnne : e.name ≠ m.name := by
        intro hname
        have he' : e = m := nodup_names_inj hnodup e he m (hsubC m ho) hname
        rw [Bool.eq_false_iff] at hstf
        exact hstf (he' ▸ hmatchC m ho)
      have hbeq : (e.name == m.name) = false := by simp [hnne]
      rw [hstf, hbeq]
      rfl
  refine ⟨hmain, ?_⟩
  intro e heC
  rw [hmain, htake6]
  constructor
  · intro hmem
    rcases List.mem_filter.mp hmem with ⟨-, hpred⟩
    have hname : e.name ≠ m.name := by simpa using hpred
    exact (hmemT_iff e heC).mpr hname
  · intro heT
    refine List.mem_filter.mpr ⟨hsubC e heC, ?_⟩
    have hname := (hmemT_iff e heC).mp heT
    simpa using hname

/-- C2: A retention pass deletes nothing when the candidate count is
within `keep_recent + keep_historical`; and at policy `(3, 3)` with
exactly 7 candidate files (distinct names, distinct modification times,
all regular files), exactly the oldest candidate is deleted — the result
is the directory with the entry named like the strict-minimum-mtime
candidate `o` removed — and a candidate survives exactly when it is among
the first 6 in newest-first order (the 3 newest plus the 4th-, 5th- and
6th-newest).
-/
theorem retention_boundary :
    (∀ (dir : List BFile) (stem : String) (policy : BackupConfig),
        (dir.filter (fun e => strStartsWith e.name stem)).length ≤
            policy.keep_recent + policy.keep_historical →
        enforce_retention dir stem policy = dir)
    ∧ (∀ (dir : List BFile) (stem : String) (o : BFile),
        (dir.map BFile.name).Nodup →
        (dir.filter (fun e => strStartsWith e.name stem)).length = 7 →
        (∀ e ∈ dir.filter (fun e => strStartsWith e.name stem), e.isFile = true) →
        o ∈ dir.filter (fun e => strStartsWith e.name stem) →
        (∀ f ∈ dir.filter (fun e => strStartsWith e.name stem),
            f.name ≠ o.name → o.mtime < f.mtime) →
        enforce_retention dir stem ⟨3, 3⟩
            = dir.filter (fun e => !(e.name == o.name))
          ∧ ∀ e ∈ dir.filter (fun e => strStartsWith e.name stem),
              (e ∈ enforce_retention dir stem ⟨3, 3⟩ ↔
                e ∈ (sortNewestFirst
                      (dir.filter (fun e => strStartsWith e.name stem))).take 6)) := by
  constructor
  · intro dir stem policy h
    simp only [enforce_retention]
    rw [length_sortNewestFirst, if_pos h]
  · intro dir stem o h1 h2 h3 h4 h5
    exact retention_seven dir stem o h1 h2 h3 h4 h5

/-- A 6-entry backup directory for stem `"x"`. -/
def dirSix : List BFile :=
  [⟨"x_1", 1, true⟩, ⟨"x_4", 4, true⟩, ⟨"x_2", 2, true⟩,
   ⟨"x_6", 6, true⟩, ⟨"x_3", 3, true⟩, ⟨"x_5", 5, true⟩]

/-- A 7-entry backup directory for stem `"x"`; `"x_1"` is the oldest. -/
def dirSeven : List BFile :=
  [⟨"x_1", 1, true⟩, ⟨"x_7", 7, true⟩, ⟨"x_3", 3, true⟩, ⟨"x_5", 5, true⟩,
   ⟨"x_2", 2, true⟩, ⟨"x_6", 6, true⟩, ⟨"x_4", 4, true⟩]

theorem retention_boundary_witness :
    enforce_retention dirSix "x" ⟨3, 3⟩ = dirSix
      ∧ enforce_retention dirSeven "x" ⟨3, 3⟩
          = dirSeven.filter (fun e => !(e.name == ("x_1" : String))) :=
  ⟨retention_boundary.1 dirSix "x" ⟨3, 3⟩ (by decide),
   (retention_boundary.2 dirSeven "x" ⟨"x_1", 1, true⟩ (by decide) (by decide)
      (by decide) (by decide) (by decide)).1⟩

/-- C4 counterexample: The claim fails for stems that are prefixes of one
another: `"a"` and `"ab"` are distinct source stems, the file
`ab_20240101000000.bak` belongs to stem `"ab"` (its name carries the
`ab_` prefix), yet a retention pass for stem `"a"` counts it as a
candidate and deletes it.
-/
theorem stem_isolation_counterexample :
    strStartsWith "ab_20240101000000.bak" "ab" = true
      ∧ ("a" : String) ≠ "ab"
      ∧ enforce_retention [⟨"ab_20240101000000.bak", 1, true⟩] "a" ⟨0, 0⟩ = [] :=
  ⟨by decide, by decide, by decide⟩

/-- C4 amended: Retention for one stem never deletes an entry whose
name does not carry that stem as a prefix, and such entries do not count
toward the stem's retention accounting: a retention pass over a directory
extended with foreign-named entries acts exactly as it does without them
and keeps every one of them.  (For stems like `apples` and `oranges`,
where neither stem's backup names start with the other stem, this yields
the claimed isolation; it fails only when one stem is a prefix of the
other's file names, per the counterexample.)
-/
theorem stem_isolation_without_nested_stems :
    (∀ (dir : List BFile) (stem : String) (policy : BackupConfig),
        ∀ e ∈ dir, strStartsWith e.name stem = false →
          e ∈ enforce_retention dir stem policy)
    ∧ (∀ (dir other : List BFile) (stem : String) (policy : BackupConfig),
        (∀ e ∈ other, strStartsWith e.name stem = false) →
        enforce_retention (dir ++ other) stem policy
          = enforce_retention dir stem policy ++ other) := by
  constructor
  · intro dir stem policy e he hst
    simp only [enforce_retention]
    by_cases hcond : (sortNewestFirst
        (dir.filter (fun e => strStartsWith e.name stem))).length ≤
          policy.keep_recent + policy.keep_historical
    · rw [if_pos hcond]; exact he
    · rw [if_neg hcond]
      refine List.mem_filter.mpr ⟨he, ?_⟩
      rw [hst]
      rfl
  · intro dir other stem policy hother
    have hfilter : (dir ++ other).filter (fun e => strStartsWith e.name stem)
        = dir.filter (fun e => strStartsWith e.name stem) := by
      rw [List.filter_append]
      have hnil : other.filter (fun e => strStartsWith e.name stem) = [] :=
        List.filter_eq_nil_iff.mpr (by intro a ha; simp [hother a ha])
      rw [hnil, List.append_nil]
    simp only [enforce_retention, hfilter]
    by_cases hcond : (sortNewestFirst
        (dir.filter (fun e => strStartsWith e.name stem))).length ≤
          policy.keep_recent + policy.keep_historical
    · rw [if_pos hcond, if_pos hcond]
    · rw [if_neg hcond, if_neg hcond, List.filter_append]
      have hself : other.filter (fun e =>
          !(strStartsWith e.name stem && e.isFile &&
            !((sortNames
                (((sortNewestFirst (dir.filter (fun e => strStartsWith e.name stem))).take
                    policy.keep_recent
                  ++ pick_historical
                      ((sortNewestFirst
                          (dir.filter (fun e => strStartsWith e.name stem))).drop
                        policy.keep_recent)
                      policy.keep_historical).map BFile.name)).contains e.name)))
          = other := by
        rw [List.filter_eq_self]
        intro a ha
        rw [hother a ha]
        rfl
      rw [hself]

theorem stem_isolation_witness :
    ((⟨"oranges_1", 1, true⟩ : BFile)
        ∈ enforce_retention [⟨"apples_1", 1, true⟩, ⟨"oranges_1", 1, true⟩]
            "apples" ⟨0, 0⟩)
      ∧ enforce_retention ([⟨"apples_1", 1, true⟩] ++ [⟨"oranges_1", 1, true⟩])
            "apples" ⟨0, 0⟩
          = enforce_retention [⟨"apples_1", 1, true⟩] "apples" ⟨0, 0⟩
              ++ [⟨"oranges_1", 1, true⟩] :=
  ⟨stem_isolation_without_nested_stems.1 [⟨"apples_1", 1, true⟩, ⟨"oranges_1", 1, true⟩]
      "apples" ⟨0, 0⟩ ⟨"oranges_1", 1, true⟩ (by decide) (by decide),
   stem_isolation_without_nested_stems.2 [⟨"apples_1", 1, true⟩] [⟨"oranges_1", 1, true⟩]
      "apples" ⟨0, 0⟩ (by decide)⟩

/-- C8: When the source file does not exist, `create_backup` returns
`Ok(None)` — the explicit "no backup created" result, not an error — and
performs no filesystem mutation at all: the state (backup-directory
existence included) is returned unchanged, and no retention pass runs.
-/
theorem create_backup_skips_missing_source :
    ∀ (st : FsState) (stem ext : String) (now : Nat) (policy : BackupConfig),
      st.sourceExists = false →
      create_backup st stem ext now policy = (st, none) := by
  intro st stem ext now policy h
  simp [create_backup, h]

theorem create_backup_skips_missing_source_witness :
    create_backup ⟨false, false, [⟨"z", 1, true⟩]⟩ "items" "csv" 5 ⟨1, 1⟩
      = (⟨false, false, [⟨"z", 1, true⟩]⟩, none) :=
  create_backup_skips_missing_source ⟨false, false, [⟨"z", 1, true⟩]⟩
    "items" "csv" 5 ⟨1, 1⟩ (by decide)

theorem isPrefixOf_append_self {α : Type} [BEq α] [LawfulBEq α]
    (l t : List α) : l.isPrefixOf (l ++ t) = true := by
  induction l with
  | nil => simp [List.isPrefixOf]
  | cons a as ih => simp [List.isPrefixOf, ih]

/-- The file `{stem}_{ts}.{ext}` always matches its own stem. -/
theorem strStartsWith_dest (stem r1 r2 r3 r4 : String) :
    strStartsWith (stem ++ r1 ++ r2 ++ r3 ++ r4) stem = true := by
  unfold strStartsWith
  simp only [String.data_append, List.append_assoc]
  exact isPrefixOf_append_self _ _

/-- Retention keeps an entry that matches the stem and has a strictly
larger modification time than every other matching entry, whenever the
policy keeps at least one file.  (If the count is within budget nothing is
deleted; otherwise the entry heads the newest-first order, so it is in
`recent` when `keep_recent ≥ 1` and is `rest[0]` — always sampled first —
when `keep_recent = 0`.) -/
theorem enforce_retention_keeps_strict_newest (dir : List BFile) (stem : String)
    (policy : BackupConfig) (d : BFile)
    (hpol : 1 ≤ policy.keep_recent + policy.keep_historical)
    (hd : d ∈ dir) (hmatch : strStartsWith d.name stem = true)
    (hfile : d.isFile = true)
    (hnewest : ∀ e ∈ dir, strStartsWith e.name stem = true → e ≠ d →
        e.mtime < d.mtime) :
    d ∈ enforce_retention dir stem policy := by
  have hdC : d ∈ dir.filter (fun e => strStartsWith e.name stem) :=
    List.mem_filter.mpr ⟨hd, hmatch⟩
  simp only [enforce_retention]
  by_cases hcond : (sortNewestFirst
      (dir.filter (fun e => strStartsWith e.name stem))).length ≤
        policy.keep_recent + policy.keep_historical
  · rw [if_pos hcond]; exact hd
  · rw [if_neg hcond]
    obtain ⟨h0, t0, hP⟩ : ∃ h0 t0, sortNewestFirst
        (dir.filter (fun e => strStartsWith e.name stem)) = h0 :: t0 := by
      cases hP : sortNewestFirst (dir.filter (fun e => strStartsWith e.name stem)) with
      | nil =>
        have := (sortNewestFirst_perm _).mem_iff.mpr hdC
        rw [hP] at this
        simp at this
      | cons h0 t0 => exact ⟨h0, t0, rfl⟩
    have hh0C : h0 ∈ dir.filter (fun e => strStartsWith e.name stem) :=
      (sortNewestFirst_perm _).mem_iff.mp (by rw [hP]; exact List.mem_cons_self _ _)
    have hmax := sortNewestFirst_head_max _ h0 t0 hP d hdC
    have hh0d : h0 = d := by
      by_contra hne
      have h1 : h0 ∈ dir := List.mem_of_mem_filter hh0C
      have h2 : strStartsWith h0.name stem = true := (List.mem_filter.mp hh0C).2
      have := hnewest h0 h1 h2 hne
      omega
    rw [hh0d] at hP
    have hdK : d.name ∈ (((sortNewestFirst
        (dir.filter (fun e => strStartsWith e.name stem))).take policy.keep_recent
        ++ pick_historical
            ((sortNewestFirst
                (dir.filter (fun e => strStartsWith e.name stem))).drop
              policy.keep_recent)
            policy.keep_historical).map BFile.name) := by
      rcases Nat.eq_zero_or_pos policy.keep_recent with hkr | hkr
      · have hkh : 1 ≤ policy.keep_historical := by omega
        apply List.mem_map_of_mem
        apply List.mem_append_right
        rw [hkr, List.drop_zero, hP]
        exact pick_historical_cons_mem d t0 _ hkh
      · apply List.mem_map_of_mem
        apply List.mem_append_left
        rw [hP]
        obtain ⟨k, hk⟩ : ∃ k, policy.keep_recent = k + 1 :=
          ⟨policy.keep_recent - 1, by omega⟩
        rw [hk, List.take_succ_cons]
        exact List.mem_cons_self _ _
    refine List.mem_filter.mpr ⟨hd, ?_⟩
    have hcont := (sortNames_mem _ d.name).mpr hdK
    rw [hmatch, hfile, hcont]
    rfl

/-- C10: A successful `create_backup` call with
`keep_recent + keep_historical ≥ 1`, whose new copy has the strictly
newest modification time among its stem's entries, returns a path that
survives the retention pass the call itself runs — the returned file
still exists in the resulting state.  By contrast, with
`keep_recent = 0` and `keep_historical = 0` the call returns a path whose
file the same call has already deleted.
-/
theorem create_backup_returns_surviving_path :
    (∀ (st : FsState) (stem ext : String) (now : Nat) (policy : BackupConfig),
        st.sourceExists = true →
        1 ≤ policy.keep_recent + policy.keep_historical →
        (∀ e ∈ st.entries, strStartsWith e.name stem = true → e.mtime < now) →
        (create_backup st stem ext now policy).2
            = some (stem ++ "_" ++ tsStr now ++ "." ++ ext)
          ∧ (⟨stem ++ "_" ++ tsStr now ++ "." ++ ext, now, true⟩ : BFile)
              ∈ (create_backup st stem ext now policy).1.entries)
    ∧ ((create_backup ⟨true, false, []⟩ "items" "csv" 5 ⟨0, 0⟩).2
          = some ("items" ++ "_" ++ tsStr 5 ++ "." ++ "csv")
        ∧ (⟨"items" ++ "_" ++ tsStr 5 ++ "." ++ "csv", 5, true⟩ : BFile)
            ∉ (create_backup ⟨true, false, []⟩ "items" "csv" 5 ⟨0, 0⟩).1.entries) := by
  constructor
  · intro st stem ext now policy hsrc hpol hnew
    obtain ⟨se, de, entries⟩ := st
    have hse : se = true := hsrc
    subst hse
    refine ⟨rfl, ?_⟩
    show (⟨stem ++ "_" ++ tsStr now ++ "." ++ ext, now, true⟩ : BFile)
      ∈ enforce_retention
          (entries.filter
              (fun e => e.name ≠ stem ++ "_" ++ tsStr now ++ "." ++ ext)
            ++ [⟨stem ++ "_" ++ tsStr now ++ "." ++ ext, now, true⟩])
          stem policy
    apply enforce_retention_keeps_strict_newest _ _ _ _ hpol
    · exact List.mem_append_right _ (List.mem_singleton_self _)
    · exact strStartsWith_dest stem "_" (tsStr now) "." ext
    · rfl
    · intro e he hst hne
      rcases List.mem_append.mp he with h1 | h1
      · exact hnew e (List.mem_of_mem_filter h1) hst
      · rw [List.mem_singleton] at h1
        exact absurd h1 hne
  · constructor
    · decide
    · decide

theorem create_backup_returns_surviving_path_witness :
    (create_backup ⟨true, false, [⟨"items_old", 1, true⟩]⟩ "items" "csv" 5 ⟨1, 1⟩).2
        = some ("items" ++ "_" ++ tsStr 5 ++ "." ++ "csv")
      ∧ (⟨"items" ++ "_" ++ tsStr 5 ++ "." ++ "csv", 5, true⟩ : BFile)
          ∈ (create_backup ⟨true, false, [⟨"items_old", 1, true⟩]⟩
              "items" "csv" 5 ⟨1, 1⟩).1.entries :=
  create_backup_returns_surviving_path.1 ⟨true, false, [⟨"items_old", 1, true⟩]⟩
    "items" "csv" 5 ⟨1, 1⟩ (by decide) (by decide) (by decide)

/-- C6: Loading a collection from a path that does not exist returns the
empty collection, never an error — for items and for money.
-/
theorem read_missing_file_empty :
    (∀ (fs : String → Option CsvFile) (path : String) (now : LocalDT),
        fs path = none → read_items fs path now = .ok [])
    ∧ (∀ (fs : String → Option CsvFile) (path : String) (now : LocalDT),
        fs path = none → read_money fs path now = .ok []) := by
  constructor
  · intro fs path now h
    simp [read_items, h]
  · intro fs path now h
    simp [read_money, h]

theorem read_missing_file_empty_witness :
    read_items (fun _ => none) "items.csv" ⟨2024, 1, 1, 0, 0, 0⟩ = .ok []
      ∧ read_money (fun _ => none) "money.csv" ⟨2024, 1, 1, 0, 0, 0⟩ = .ok [] :=
  ⟨read_missing_file_empty.1 (fun _ => none) "items.csv" ⟨2024, 1, 1, 0, 0, 0⟩ rfl,
   read_missing_file_empty.2 (fun _ => none) "money.csv" ⟨2024, 1, 1, 0, 0, 0⟩ rfl⟩

/-- C5: If any row of the input fails to decode a non-timestamp field
(unparsable number or UUID, missing column, wrong column count), the whole
collection load fails with that decode error: no partial collection is
ever produced — for items and for money.
-/
theorem malformed_row_aborts_load :
    (∀ (hdr : List String) (rows : List (List String)) (now : LocalDT),
        (∃ r ∈ rows, ∃ e, decodeItemRow hdr r = .error e) →
        ∃ e, read_items_rows hdr rows now = .error e)
    ∧ (∀ (hdr : List String) (rows : List (List String)) (now : LocalDT),
        (∃ r ∈ rows, ∃ e, decodeMoneyRow hdr r = .error e) →
        ∃ e, read_money_rows hdr rows now = .error e) := by
  constructor
  · intro hdr rows now
    induction rows with
    | nil => rintro ⟨r, hr, -⟩; simp at hr
    | cons r rs ih =>
      rintro ⟨r', hr', e, he⟩
      rcases List.mem_cons.mp hr' with rfl | hmem
      · exact ⟨e, by simp [read_items_rows, he]⟩
      · cases hdec : decodeItemRow hdr r with
        | error e0 => exact ⟨e0, by simp [read_items_rows, hdec]⟩
        | ok ci =>
          obtain ⟨e1, he1⟩ := ih ⟨r', hmem, e, he⟩
          exact ⟨e1, by simp [read_items_rows, hdec, he1]⟩
  · intro hdr rows now
    induction rows with
    | nil => rintro ⟨r, hr, -⟩; simp at hr
    | cons r rs ih =>
      rintro ⟨r', hr', e, he⟩
      rcases List.mem_cons.mp hr' with rfl | hmem
      · exact ⟨e, by simp [read_money_rows, he]⟩
      · cases hdec : decodeMoneyRow hdr r with
        | error e0 => exact ⟨e0, by simp [read_money_rows, hdec]⟩
        | ok ce =>
          obtain ⟨e1, he1⟩ := ih ⟨r', hmem, e, he⟩
          exact ⟨e1, by simp [read_money_rows, hdec, he1]⟩

/-- The header row `write_items` emits. -/
def hdrItems : List String :=
  ["id", "date", "product", "description", "location", "reference", "cost",
   "urgency", "value", "price_comp", "effect", "justification", "recurrence",
   "overall_score"]

/-- The header row `write_money` emits. -/
def hdrMoney : List String :=
  ["id", "date", "entry_type", "source_or_destination", "amount", "notes",
   "linked_item_id"]

/-- An item row whose `cost` column does not parse as a number. -/
def rowBadCost : List String :=
  ["123e4567-e89b-12d3-a456-426614174000", "2024-03-07 09:05", "tv", "a tv",
   "home", "ref", "not-a-number", "4", "5", "2", "1", "why", "once", ""]

/-- A money row whose `id` column is not a UUID. -/
def rowBadId : List String :=
  ["not-a-uuid", "2024-03-07 09:05", "expense", "shop", "12.5", "notes", ""]

theorem malformed_row_aborts_load_witness :
    (∃ e, read_items_rows hdrItems [rowBadCost] ⟨2020, 1, 1, 0, 0, 0⟩ = .error e)
      ∧ (∃ e, read_money_rows hdrMoney [rowBadId] ⟨2020, 1, 1, 0, 0, 0⟩
          = .error e) :=
  ⟨malformed_row_aborts_load.1 hdrItems [rowBadCost] ⟨2020, 1, 1, 0, 0, 0⟩
      ⟨rowBadCost, List.mem_cons_self _ _, DecodeErr.badField "cost", rfl⟩,
   malformed_row_aborts_load.2 hdrMoney [rowBadId] ⟨2020, 1, 1, 0, 0, 0⟩
      ⟨rowBadId, List.mem_cons_self _ _, DecodeErr.badField "id", rfl⟩⟩

/-- C7: A row whose timestamp does not parse against `DATE_FMT` does not
fail to decode: the record is produced with the timestamp replaced by
`now`, every other field taken from the row unchanged; and the collection
load proceeds — it succeeds whenever every row passes the (timestamp-blind)
field decode, for items and for money.
-/
theorem timestamp_fallback_to_now :
    (∀ (c : CsvItem) (now : LocalDT), parseDT c.date = none →
        c.into_record now = ⟨c.id, now, c.product, c.description, c.location,
          c.reference, c.cost, c.urgency, c.value, c.price_comp, c.effect,
          c.justification, c.recurrence, c.overall_score⟩)
    ∧ (∀ (c : CsvMoney) (now : LocalDT), parseDT c.date = none →
        c.into_record now = ⟨c.id, now, c.entry_type, c.source_or_destination,
          c.amount, c.notes, c.linked_item_id⟩)
    ∧ (∀ (hdr : List String) (rows : List (List String)) (now : LocalDT),
        (∀ r ∈ rows, ∃ ci, decodeItemRow hdr r = .ok ci) →
        ∃ l, read_items_rows hdr rows now = .ok l)
    ∧ (∀ (hdr : List String) (rows : List (List String)) (now : LocalDT),
        (∀ r ∈ rows, ∃ ce, decodeMoneyRow hdr r = .ok ce) →
        ∃ l, read_money_rows hdr rows now = .ok l) := by
  refine ⟨?_, ?_, ?_, ?_⟩
  · intro c now h
    simp [CsvItem.into_record, h]
  · intro c now h
    simp [CsvMoney.into_record, h]
  · intro hdr rows now
    induction rows with
    | nil => intro _; exact ⟨[], rfl⟩
    | cons r rs ih =>
      intro hall
      obtain ⟨ci, hci⟩ := hall r (List.mem_cons_self _ _)
      obtain ⟨l, hl⟩ := ih (fun r' hr' => hall r' (List.mem_cons_of_mem _ hr'))
      exact ⟨ci.into_record now :: l, by simp [read_items_rows, hci, hl]⟩
  · intro hdr rows now
    induction rows with
    | nil => intro _; exact ⟨[], rfl⟩
    | cons r rs ih =>
      intro hall
      obtain ⟨ce, hce⟩ := hall r (List.mem_cons_self _ _)
      obtain ⟨l, hl⟩ := ih (fun r' hr' => hall r' (List.mem_cons_of_mem _ hr'))
      exact ⟨ce.into_record now :: l, by simp [read_money_rows, hce, hl]⟩

/-- A `CsvItem` row whose date text is not a `DATE_FMT` timestamp. -/
def badDateItem : CsvItem :=
  ⟨"123e4567-e89b-12d3-a456-426614174000", "never", "tv", "d", "l", "r",
   3, 4, 5, 2, 1, "j", "once", none⟩

theorem timestamp_fallback_to_now_witness :
    badDateItem.into_record ⟨2020, 1, 2, 3, 4, 0⟩
      = ⟨badDateItem.id, ⟨2020, 1, 2, 3, 4, 0⟩, badDateItem.product,
        badDateItem.description, badDateItem.location, badDateItem.reference,
        badDateItem.cost, badDateItem.urgency, badDateItem.value,
        badDateItem.price_comp, badDateItem.effect, badDateItem.justification,
        badDateItem.recurrence, badDateItem.overall_score⟩ :=
  timestamp_fallback_to_now.1 badDateItem ⟨2020, 1, 2, 3, 4, 0⟩ (by decide)

/-- An item record whose timestamp has nonzero seconds. -/
def secondsItem : ItemRecord :=
  ⟨"123e4567-e89b-12d3-a456-426614174000", ⟨2024, 3, 7, 9, 5, 30⟩, "tv", "d",
   "l", "r", 3, 4, 5, 2, 1, "j", "once", none⟩

/-- A money record whose timestamp has zero seconds. -/
def secondsMoney : MoneyRecord :=
  ⟨"123e4567-e89b-12d3-a456-426614174000", ⟨2023, 12, 31, 23, 59, 59⟩,
   "expense", "shop", 7, "n", none⟩

/-- C3 counterexample: The round trip is not the identity on every valid
record: `DATE_FMT` (`"%Y-%m-%d %H:%M"`) has minute resolution, so a record
whose timestamp carries nonzero seconds decodes to a different timestamp —
and the timestamp is not a float field (here the float fields do come back
exactly).
-/
theorem roundtrip_counterexample :
    ((CsvItem.ofRecord secondsItem).into_record ⟨2020, 1, 1, 0, 0, 0⟩).date
        ≠ secondsItem.date
      ∧ ((CsvItem.ofRecord secondsItem).into_record ⟨2020, 1, 1, 0, 0, 0⟩).cost
          = secondsItem.cost
      ∧ ((CsvItem.ofRecord secondsItem).into_record ⟨2020, 1, 1, 0, 0, 0⟩).overall_score
          = secondsItem.overall_score := by
  refine ⟨by decide, by decide, by decide⟩

/-- C3 amended: Encoding a valid record (item or money, optional fields
absent or present) to its row and decoding the row back returns the
record with its timestamp truncated to the minute — the resolution of the
configured format; every other field, float fields included, returns
exactly.  In particular the round trip is the identity whenever the
timestamp's seconds are zero.
-/
theorem roundtrip_minute_precision :
    (∀ (r : ItemRecord) (now : LocalDT), ValidDT r.date →
        (CsvItem.ofRecord r).into_record now = { r with date := truncMin r.date })
    ∧ (∀ (m : MoneyRecord) (now : LocalDT), ValidDT m.date →
        (CsvMoney.ofRecord m).into_record now = { m with date := truncMin m.date })
    ∧ (∀ (r : ItemRecord) (now : LocalDT), ValidDT r.date → r.date.second = 0 →
        (CsvItem.ofRecord r).into_record now = r) := by
  have htrunc : ∀ d : LocalDT, d.second = 0 → truncMin d = d := by
    intro d h
    cases d
    simp only [truncMin] at *
    rw [← h]
  refine ⟨?_, ?_, ?_⟩
  · intro r now h
    simp [CsvItem.into_record, CsvItem.ofRecord, parseDT_formatDT r.date h]
  · intro m now h
    simp [CsvMoney.into_record, CsvMoney.ofRecord, parseDT_formatDT m.date h]
  · intro r now h h0
    simp [CsvItem.into_record, CsvItem.ofRecord, parseDT_formatDT r.date h,
      htrunc r.date h0]

theorem roundtrip_minute_precision_witness :
    (CsvItem.ofRecord secondsItem).into_record ⟨2020, 1, 1, 0, 0, 0⟩
        = { secondsItem with date := truncMin secondsItem.date }
      ∧ (CsvMoney.ofRecord secondsMoney).into_record ⟨2020, 1, 1, 0, 0, 0⟩
          = { secondsMoney with date := truncMin secondsMoney.date } :=
  ⟨roundtrip_minute_precision.1 secondsItem ⟨2020, 1, 1, 0, 0, 0⟩ (by decide),
   roundtrip_minute_precision.2.1 secondsMoney ⟨2020, 1, 1, 0, 0, 0⟩ (by decide)⟩

end FPA
